import Mathlib

/-!
Verification of the protocol-translation engine of CLIProxyAPI.

This file gives a shallow embedding, in Lean 4, of the tool-name shortening
algorithm (`shortenNameIfNeeded`, `buildShortNameMap` from
`internal/translator/codex/openai/chat-completions/codex_openai_request.go`),
of the Codex→Claude streaming and non-streaming response converters
(`ConvertCodexResponseToClaude`, `ConvertCodexResponseToClaudeNonStream`,
`buildReverseMapFromClaudeOriginalShortToOriginal` from
`internal/translator/codex/claude/codex_claude_response.go`), and of the
modalities mapping of `ConvertOpenAIRequestToGemini`.

Modelling conventions:
* Go strings / byte slices are modelled as `List Char`; Go byte indexing and
  `len` become character indexing and `List.length` (the engine treats names
  and JSON text as opaque byte sequences, so the byte/rune distinction is
  immaterial to the verified properties).
* Go `map[string]string` is modelled as an association list with
  overwrite-on-insert semantics (`alistInsert`), looked up by `alistLookup`;
  Go map iteration order is immaterial in every modelled use because the
  iterated maps have pairwise-distinct values.
* Go machine integers are modelled as `Nat`/`Int`; where a Go `int` bound
  matters (slice lengths are below `2^63`) it appears as an explicit
  hypothesis.
* Unbounded Go `for` loops are modelled with explicit fuel, and the fuel is
  proved sufficient.
-/

/-- The characters of a string literal; Go strings are modelled as `List Char`. -/
def chars (s : String) : List Char := s.data

/-- Decimal digit character, mirroring the digits produced by Go `strconv.Itoa`
(the default branch is unreachable: it is only applied to `n % 10`). -/
def digitChar : Nat → Char
  | 0 => '0'
  | 1 => '1'
  | 2 => '2'
  | 3 => '3'
  | 4 => '4'
  | 5 => '5'
  | 6 => '6'
  | 7 => '7'
  | 8 => '8'
  | 9 => '9'
  | _ => '0'

/-- Numeric value of a decimal digit character (inverse of `digitChar`). -/
def digitVal : Char → Nat
  | '1' => 1
  | '2' => 2
  | '3' => 3
  | '4' => 4
  | '5' => 5
  | '6' => 6
  | '7' => 7
  | '8' => 8
  | '9' => 9
  | _ => 0

/-- Fueled decimal rendering of a natural number, most significant digit
first; the fuel is always instantiated above the argument. -/
def toDigitsAux : Nat → Nat → List Char
  | 0, _ => []
  | fuel + 1, n =>
    if n < 10 then [digitChar n]
    else toDigitsAux fuel (n / 10) ++ [digitChar (n % 10)]

/-- Model of Go `strconv.Itoa` on the natural numbers (the collision loop of
`buildShortNameMap` only renders positive indices). -/
def itoa (n : Nat) : List Char := toDigitsAux (n + 1) n

/-- Decimal evaluation of a digit list; left inverse of `itoa`. -/
def fromDigits (ds : List Char) : Nat :=
  ds.foldl (fun a c => a * 10 + digitVal c) 0

/-! ## The identifier shortener

Model of `shortenNameIfNeeded`, `buildShortNameMap` from
`internal/translator/codex/openai/chat-completions/codex_openai_request.go`.
-/
/-- Model of Go `strings.HasPrefix(s, pat)` / `bytes.HasPrefix`. -/
def goHasPrefix : List Char → List Char → Bool
  | _, [] => true
  | [], _ :: _ => false
  | c :: s, p :: ps => c = p && goHasPrefix s ps

/-- Largest index `k ≤ i` at which `pat` occurs in `s`, searching downward
(model of the result of Go `strings.LastIndex`, which returns the last
occurrence; `none` models the `-1` result). -/
def lastIndexLe (s pat : List Char) : Nat → Option Nat
  | 0 => if goHasPrefix s pat then some 0 else none
  | i + 1 =>
    if goHasPrefix (s.drop (i + 1)) pat then some (i + 1) else lastIndexLe s pat i

/-- Model of Go `strings.LastIndex(s, pat)`; `none` stands for `-1`. -/
def lastIndex (s pat : List Char) : Option Nat := lastIndexLe s pat s.length

/-- The `"mcp__"` prefix preserved by the shortener. -/
def mcpTag : List Char := chars "mcp__"

/-- Model of `shortenNameIfNeeded` (codex_openai_request.go:314): names of at
most 64 characters pass through; longer `mcp__*` names keep the prefix and the
segment after the last `"__"`, truncated to 64; other long names are cut at 64. -/
def shortenNameIfNeeded (name : List Char) : List Char :=
  if name.length ≤ 64 then name
  else
    if goHasPrefix name mcpTag then
      match lastIndex name (chars "__") with
      | some idx =>
        if 0 < idx then
          let candidate := mcpTag ++ name.drop (idx + 2)
          if candidate.length > 64 then candidate.take 64 else candidate
        else name.take 64
      | none => name.take 64
    else name.take 64

/-- Model of the inner `baseCandidate` closure of `buildShortNameMap`
(codex_openai_request.go:341): the pre-collision shortening candidate. -/
def baseCandidate (n : List Char) : List Char :=
  if n.length ≤ 64 then n
  else
    if goHasPrefix n mcpTag then
      match lastIndex n (chars "__") with
      | some idx =>
        if 0 < idx then
          let cand := mcpTag ++ n.drop (idx + 2)
          if cand.length > 64 then cand.take 64 else cand
        else n.take 64
      | none => n.take 64
    else n.take 64

/-- The `i`-th collision candidate tried by the `makeUnique` loop: the base,
truncated so that the whole string stays within 64 characters, followed by the
suffix `"~i"`.  `Nat` subtraction models the Go clamp `if allowed < 0`. -/
def tmpCand (base : List Char) (i : Nat) : List Char :=
  let suffix := '~' :: itoa i
  let allowed := 64 - suffix.length
  (if base.length > allowed then base.take allowed else base) ++ suffix

/-- The unbounded `for i := 1; ; i++` collision loop of `makeUnique`
(codex_openai_request.go:363), with explicit fuel; `makeUniqueLoop_succeeds`
below proves that fuel `used.length + 1` never runs out. -/
def makeUniqueLoop (used : List (List Char)) (base : List Char) :
    Nat → Nat → Option (List Char)
  | 0, _ => none
  | fuel + 1, i =>
    if tmpCand base i ∈ used then makeUniqueLoop used base fuel (i + 1)
    else some (tmpCand base i)

/-- Model of the inner `makeUnique` closure of `buildShortNameMap`
(codex_openai_request.go:358).  The `none` fallback mirrors nothing in the Go
source: the loop there is unbounded, and `makeUniqueLoop_succeeds` shows the
fallback branch is never taken. -/
def makeUnique (used : List (List Char)) (cand : List Char) : List Char :=
  if cand ∈ used then
    match makeUniqueLoop used cand (used.length + 1) 1 with
    | some t => t
    | none => cand
  else cand

/-- Insertion into a Go string set (`map[string]struct{}`): idempotent. -/
def usedInsert (used : List (List Char)) (x : List Char) : List (List Char) :=
  if x ∈ used then used else x :: used

/-- Go map assignment `m[k] = v`: overwrite the entry for `k` if present,
otherwise add one. -/
def alistInsert : List (List Char × List Char) → List Char → List Char →
    List (List Char × List Char)
  | [], k, v => [(k, v)]
  | (k', v') :: rest, k, v =>
    if k' = k then (k, v) :: rest else (k', v') :: alistInsert rest k v

/-- Go map read `m[k]`: the value stored for `k`, if any. -/
def alistLookup : List (List Char × List Char) → List Char → Option (List Char)
  | [], _ => none
  | (k', v') :: rest, k => if k' = k then some v' else alistLookup rest k

/-- The loop body of `buildShortNameMap` folded over the name list, carrying
the `used` set and the map `m`. -/
def buildShortNameMapAux : List (List Char) → List (List Char) →
    List (List Char × List Char) → List (List Char × List Char)
  | [], _, m => m
  | n :: rest, used, m =>
    let cand := baseCandidate n
    let uniq := makeUnique used cand
    buildShortNameMapAux rest (usedInsert used uniq) (alistInsert m n uniq)

/-- Model of `buildShortNameMap` (codex_openai_request.go:336): deterministic,
collision-free shortening of a list of tool names. -/
def buildShortNameMap (names : List (List Char)) : List (List Char × List Char) :=
  buildShortNameMapAux names [] []

/-- Modelled from the spec (§4.3): "the last `__`-delimited segment" of a name
is everything after the final occurrence of `"__"`. -/
def specLastSegment (n : List Char) : List Char :=
  match lastIndex n (chars "__") with
  | some idx => n.drop (idx + 2)
  | none => n

/-- Modelled from the spec (§4.3), the `ShortenIfNeeded` contract: unchanged at
length ≤ 64; `"mcp__" + <last segment>` truncated to 64 for long `mcp__` names;
first 64 characters otherwise. -/
def specShortenIfNeeded (name : List Char) : List Char :=
  if name.length ≤ 64 then name
  else
    if goHasPrefix name mcpTag then
      let candidate := mcpTag ++ specLastSegment name
      if candidate.length > 64 then candidate.take 64 else candidate
    else name.take 64

/-! ## Map invariants of `buildShortNameMap` -/
/-- The values (shortened names) stored in a modelled Go map. -/
def mapValues (m : List (List Char × List Char)) : List (List Char) :=
  m.map (fun p => p.2)

/-- The keys (original names) stored in a modelled Go map. -/
def mapKeys (m : List (List Char × List Char)) : List (List Char) :=
  m.map (fun p => p.1)

/-! ## JSON documents

The converters operate on parsed JSON trees (`gjson.ParseBytes` results) and
produce JSON trees (`sjson` edits of template documents).  Numbers are
modelled as integers — the only numeric fields the verified converters touch
are token counts and indices.
-/
/-- A JSON document. -/
inductive Json where
  | null
  | bool (b : Bool)
  | num (n : Int)
  | str (s : List Char)
  | arr (elems : List Json)
  | obj (fields : List (List Char × Json))

/-- Decimal rendering of an integer. -/
def intRepr (n : Int) : List Char :=
  if n < 0 then '-' :: itoa n.natAbs else itoa n.natAbs

/-- JSON string escaping used when rendering raw JSON text. -/
def escChars (c : Char) : List Char :=
  if c = '"' then ['\\', '"']
  else if c = '\\' then ['\\', '\\']
  else if c = '\n' then ['\\', 'n']
  else if c = '\t' then ['\\', 't']
  else if c = '\r' then ['\\', 'r']
  else [c]

/-- Escape every character of a JSON string body. -/
def escapeChars : List Char → List Char
  | [] => []
  | c :: rest => escChars c ++ escapeChars rest

/-- A JSON string literal with quotes. -/
def serializeStringLit (s : List Char) : List Char :=
  '"' :: escapeChars s ++ ['"']

mutual

/-- Compact rendering of a JSON tree (the model of the raw text `gjson`
reports for array/object results). -/
def serializeJson : Json → List Char
  | .null => chars "null"
  | .bool true => chars "true"
  | .bool false => chars "false"
  | .num n => intRepr n
  | .str s => serializeStringLit s
  | .arr xs => '[' :: (serializeElems xs ++ [']'])
  | .obj fs => '{' :: (serializeFields fs ++ ['}'])

/-- Comma-separated array elements. -/
def serializeElems : List Json → List Char
  | [] => []
  | [x] => serializeJson x
  | x :: y :: rest => serializeJson x ++ ',' :: serializeElems (y :: rest)

/-- Comma-separated object fields. -/
def serializeFields : List (List Char × Json) → List Char
  | [] => []
  | [(k, v)] => serializeStringLit k ++ ':' :: serializeJson v
  | (k, v) :: y :: rest =>
    serializeStringLit k ++ ':' :: serializeJson v ++ ',' :: serializeFields (y :: rest)

end

/-- `gjson` `Result.String()`: strings pass through, numbers and booleans are
rendered, null/missing is empty, arrays and objects render as raw JSON. -/
def resultString : Json → List Char
  | .null => []
  | .bool true => chars "true"
  | .bool false => chars "false"
  | .num n => intRepr n
  | .str s => s
  | .arr xs => serializeJson (.arr xs)
  | .obj fs => serializeJson (.obj fs)

/-- Model of Go integer parsing (`strconv.ParseInt`, base 10): an optional
sign followed only by digits; anything else yields 0. -/
def strToInt (s : List Char) : Int :=
  match s with
  | '-' :: rest =>
    if rest ≠ [] ∧ rest.all (fun c => c.isDigit) then -(fromDigits rest : Int) else 0
  | _ =>
    if s ≠ [] ∧ s.all (fun c => c.isDigit) then (fromDigits s : Int) else 0

/-- `gjson` `Result.Int()`: numbers pass through, `true` is 1, numeric strings
parse, everything else is 0. -/
def resultInt : Json → Int
  | .num n => n
  | .bool true => 1
  | .str s => strToInt s
  | _ => 0

/-- First field with the given key (Go JSON object field access). -/
def jFieldLookup : List (List Char × Json) → List Char → Option Json
  | [], _ => none
  | (k', v) :: rest, k => if k' = k then some v else jFieldLookup rest k

/-- `gjson` dotted-path read over object keys; `none` models a non-existent
result.  (The path is scrutinized first so that `jGet v []` reduces even for
a symbolic document `v`.) -/
def jGet (j : Json) (path : List (List Char)) : Option Json :=
  match path with
  | [] => some j
  | k :: rest =>
    match j with
    | .obj fs =>
      match jFieldLookup fs k with
      | some v => jGet v rest
      | none => none
    | _ => none

/-- `gjson` `Get(path).String()`: empty for missing results. -/
def jGetString (j : Json) (path : List (List Char)) : List Char :=
  match jGet j path with
  | some v => resultString v
  | none => []

/-- `gjson` `Get(path).Int()`: zero for missing results. -/
def jGetInt (j : Json) (path : List (List Char)) : Int :=
  match jGet j path with
  | some v => resultInt v
  | none => 0

/-- Fresh nested objects created when an `sjson` path is missing. -/
def jBuild : List (List Char) → Json → Json
  | [], v => v
  | k :: rest, v => .obj [(k, jBuild rest v)]

/-- One object layer of an `sjson` write: update the field `k` via `goRec` if
present, otherwise append `(k, repl)`. -/
def jSetField (goRec : Json → Json) (k : List Char) (repl : Json) :
    List (List Char × Json) → List (List Char × Json)
  | [] => [(k, repl)]
  | (k', v') :: fs =>
    if k' = k then (k, goRec v') :: fs else (k', v') :: jSetField goRec k repl fs

/-- Model of `sjson.Set`: write `v` at the dotted path, creating (or
replacing) intermediate objects as needed. -/
def jSet : List (List Char) → Json → Json → Json
  | [], _, v => v
  | k :: rest, j, v =>
    match j with
    | .obj fs => .obj (jSetField (fun child => jSet rest child v) k (jBuild rest v) fs)
    | _ => .obj [(k, jBuild rest v)]

/-- ASCII whitespace (the JSON/SSE whitespace the engine encounters). -/
def isWs (c : Char) : Bool := c = ' ' || c = '\t' || c = '\n' || c = '\r'

/-- Leading whitespace removal. -/
def skipWs (cs : List Char) : List Char := cs.dropWhile isWs

/-- Model of Go `bytes.TrimSpace`. -/
def trimSpace (cs : List Char) : List Char :=
  ((cs.dropWhile isWs).reverse.dropWhile isWs).reverse

/-- Body of a JSON string literal after the opening quote: characters up to
the closing quote, decoding one-character escapes (`\uXXXX` is outside the
model). -/
def parseStringBody : List Char → Option (List Char × List Char)
  | [] => none
  | '"' :: rest => some ([], rest)
  | '\\' :: e :: rest =>
    let dec : Option Char :=
      if e = '"' then some '"'
      else if e = '\\' then some '\\'
      else if e = '/' then some '/'
      else if e = 'n' then some '\n'
      else if e = 't' then some '\t'
      else if e = 'r' then some '\r'
      else none
    match dec with
    | some c =>
      match parseStringBody rest with
      | some (s, r) => some (c :: s, r)
      | none => none
    | none => none
  | c :: rest =>
    match parseStringBody rest with
    | some (s, r) => some (c :: s, r)
    | none => none

/-- A (non-empty) run of decimal digits and its value. -/
def parseNatTok (cs : List Char) : Option (Nat × List Char) :=
  let ds := cs.takeWhile (fun c => c.isDigit)
  if ds = [] then none
  else some (fromDigits ds, cs.dropWhile (fun c => c.isDigit))

/-- Parser mode: a plain value, the remaining elements of an array, or the
remaining fields of an object (with the elements accumulated so far). -/
inductive PMode where
  | val
  | arrElems (acc : List Json)
  | objFields (acc : List (List Char × Json))

/-- Recursive-descent JSON parsing, structural in the fuel so that concrete
inputs evaluate inside the kernel.  Numbers are restricted to integers (the
verified converters never inspect fractional values). -/
def parseAux : Nat → PMode → List Char → Option (Json × List Char)
  | 0, _, _ => none
  | fuel + 1, .val, cs =>
    match skipWs cs with
    | 'n' :: 'u' :: 'l' :: 'l' :: rest => some (.null, rest)
    | 't' :: 'r' :: 'u' :: 'e' :: rest => some (.bool true, rest)
    | 'f' :: 'a' :: 'l' :: 's' :: 'e' :: rest => some (.bool false, rest)
    | '"' :: rest =>
      match parseStringBody rest with
      | some (s, r) => some (.str s, r)
      | none => none
    | '[' :: rest =>
      (match skipWs rest with
        | ']' :: rest2 => some (.arr [], rest2)
        | _ => parseAux fuel (.arrElems []) rest)
    | '{' :: rest =>
      (match skipWs rest with
        | '}' :: rest2 => some (.obj [], rest2)
        | _ => parseAux fuel (.objFields []) rest)
    | '-' :: rest =>
      (match parseNatTok rest with
        | some (n, r) => some (.num (-(n : Int)), r)
        | none => none)
    | c :: rest =>
      if c.isDigit then
        match parseNatTok (c :: rest) with
        | some (n, r) => some (.num (n : Int), r)
        | none => none
      else none
    | [] => none
  | fuel + 1, .arrElems acc, cs =>
    match parseAux fuel .val cs with
    | none => none
    | some (v, rest) =>
      match skipWs rest with
      | ',' :: rest2 => parseAux fuel (.arrElems (acc ++ [v])) rest2
      | ']' :: rest2 => some (.arr (acc ++ [v]), rest2)
      | _ => none
  | fuel + 1, .objFields acc, cs =>
    match skipWs cs with
    | '"' :: rest =>
      (match parseStringBody rest with
        | none => none
        | some (key, rest2) =>
          match skipWs rest2 with
          | ':' :: rest3 =>
            (match parseAux fuel .val rest3 with
              | none => none
              | some (v, rest4) =>
                match skipWs rest4 with
                | ',' :: rest5 => parseAux fuel (.objFields (acc ++ [(key, v)])) rest5
                | '}' :: rest5 => some (.obj (acc ++ [(key, v)]), rest5)
                | _ => none)
          | _ => none)
    | _ => none

/-- Model of strict JSON document parsing (`json.Unmarshal`): the whole input
must be consumed, up to trailing whitespace. -/
def jsonParse (cs : List Char) : Option Json :=
  match parseAux (4 * cs.length + 4) .val cs with
  | some (j, rest) => if skipWs rest = [] then some j else none
  | none => none

/-! ## The reverse tool-name map (codex_claude_response.go:335) -/
/-- The tool names of a Claude-format request: the non-empty `name` of every
entry of the `tools` array (empty when `tools` is missing or not an array). -/
def claudeToolNames (req : Json) : List (List Char) :=
  match jGet req [chars "tools"] with
  | some (.arr ts) =>
    (ts.map (fun t => jGetString t [chars "name"])).filter (fun n => decide (n ≠ []))
  | _ => []

/-- Model of `buildReverseMapFromClaudeOriginalShortToOriginal`: recompute
`buildShortNameMap` over the original request's tool names and invert it.
(Go iterates the map in unspecified order; since the values are pairwise
distinct the resulting lookup function is order-independent, and the model
iterates in first-insertion order.) -/
def buildReverseMapFromClaudeOriginalShortToOriginal (original : Json) :
    List (List Char × List Char) :=
  let names := claudeToolNames original
  if names = [] then []
  else (buildShortNameMap names).foldl (fun acc p => alistInsert acc p.2 p.1) []

/-! ## The Codex→Claude streaming converter (codex_claude_response.go:40)

Each Go return value `[]string{output}` is modelled as a list of fragments;
a fragment is the parsed content of one returned string: the list of SSE
events (`event:` name plus `data:` JSON document) it carries.  The empty Go
string is the empty event list. -/
/-- One SSE event: its `event:` name and its `data:` JSON document. -/
abbrev SSEEvent := List Char × Json

/-- The upstream SSE data marker `data:`. -/
def dataTag : List Char := chars "data:"

/-- `Get` on a `gjson.ParseBytes` result; a failed parse behaves as an empty
document (every read misses). -/
def rootGet (root : Option Json) (path : List (List Char)) : Option Json :=
  match root with
  | some j => jGet j path
  | none => none

/-- `Get(path).String()` on a parse result. -/
def rootGetString (root : Option Json) (path : List (List Char)) : List Char :=
  match root with
  | some j => jGetString j path
  | none => []

/-- `Get(path).Int()` on a parse result. -/
def rootGetInt (root : Option Json) (path : List (List Char)) : Int :=
  match root with
  | some j => jGetInt j path
  | none => 0

/-- Template of the `message_start` event (codex_claude_response.go:58). -/
def tmplMessageStart : Json :=
  .obj [
    (chars "type", .str (chars "message_start")),
    (chars "message", .obj [
      (chars "id", .str []),
      (chars "type", .str (chars "message")),
      (chars "role", .str (chars "assistant")),
      (chars "model", .str (chars "claude-opus-4-1-20250805")),
      (chars "stop_sequence", .null),
      (chars "usage", .obj [
        (chars "input_tokens", .num 0),
        (chars "output_tokens", .num 0)]),
      (chars "content", .arr []),
      (chars "stop_reason", .null)])]

/-- Template of a `thinking` block start (codex_claude_response.go:65). -/
def tmplThinkingStart : Json :=
  .obj [
    (chars "type", .str (chars "content_block_start")),
    (chars "index", .num 0),
    (chars "content_block", .obj [
      (chars "type", .str (chars "thinking")),
      (chars "thinking", .str [])])]

/-- Template of a `thinking_delta` event (codex_claude_response.go:71). -/
def tmplThinkingDelta : Json :=
  .obj [
    (chars "type", .str (chars "content_block_delta")),
    (chars "index", .num 0),
    (chars "delta", .obj [
      (chars "type", .str (chars "thinking_delta")),
      (chars "thinking", .str [])])]

/-- Template of a `content_block_stop` event (codex_claude_response.go:78). -/
def tmplBlockStop : Json :=
  .obj [
    (chars "type", .str (chars "content_block_stop")),
    (chars "index", .num 0)]

/-- Template of a `text` block start (codex_claude_response.go:84). -/
def tmplTextStart : Json :=
  .obj [
    (chars "type", .str (chars "content_block_start")),
    (chars "index", .num 0),
    (chars "content_block", .obj [
      (chars "type", .str (chars "text")),
      (chars "text", .str [])])]

/-- Template of a `text_delta` event (codex_claude_response.go:90). -/
def tmplTextDelta : Json :=
  .obj [
    (chars "type", .str (chars "content_block_delta")),
    (chars "index", .num 0),
    (chars "delta", .obj [
      (chars "type", .str (chars "text_delta")),
      (chars "text", .str [])])]

/-- Template of the `message_delta` event (codex_claude_response.go:103). -/
def tmplMessageDelta : Json :=
  .obj [
    (chars "type", .str (chars "message_delta")),
    (chars "delta", .obj [
      (chars "stop_reason", .str (chars "tool_use")),
      (chars "stop_sequence", .null)]),
    (chars "usage", .obj [
      (chars "input_tokens", .num 0),
      (chars "output_tokens", .num 0)])]

/-- Template of a `tool_use` block start (codex_claude_response.go:124). -/
def tmplToolUseStart : Json :=
  .obj [
    (chars "type", .str (chars "content_block_start")),
    (chars "index", .num 0),
    (chars "content_block", .obj [
      (chars "type", .str (chars "tool_use")),
      (chars "id", .str []),
      (chars "name", .str []),
      (chars "input", .obj [])])]

/-- Template of an `input_json_delta` event (codex_claude_response.go:140). -/
def tmplInputJsonDelta : Json :=
  .obj [
    (chars "type", .str (chars "content_block_delta")),
    (chars "index", .num 0),
    (chars "delta", .obj [
      (chars "type", .str (chars "input_json_delta")),
      (chars "partial_json", .str [])])]

/-- Model of `ConvertCodexResponseToClaude`: one upstream SSE line plus the
per-stream has-tool-call flag (`param`, `none` for the Go nil) in, the list of
returned fragments plus the updated flag out.  Mirrors the Go if/else chain on
the upstream event type. -/
def ConvertCodexResponseToClaude (originalRequestRawJSON : Json)
    (line : List Char) (param : Option Bool) :
    List (List SSEEvent) × Bool :=
  let hasToolCall := param.getD false
  if goHasPrefix line dataTag then
    let root := jsonParse (trimSpace (line.drop 5))
    let typeStr := rootGetString root [chars "type"]
    if typeStr = chars "response.created" then
      let t := jSet [chars "message", chars "model"] tmplMessageStart
        (.str (rootGetString root [chars "response", chars "model"]))
      let t := jSet [chars "message", chars "id"] t
        (.str (rootGetString root [chars "response", chars "id"]))
      ([[(chars "message_start", t)]], hasToolCall)
    else if typeStr = chars "response.reasoning_summary_part.added" then
      let t := jSet [chars "index"] tmplThinkingStart
        (.num (rootGetInt root [chars "output_index"]))
      ([[(chars "content_block_start", t)]], hasToolCall)
    else if typeStr = chars "response.reasoning_summary_text.delta" then
      let t := jSet [chars "index"] tmplThinkingDelta
        (.num (rootGetInt root [chars "output_index"]))
      let t := jSet [chars "delta", chars "thinking"] t
        (.str (rootGetString root [chars "delta"]))
      ([[(chars "content_block_delta", t)]], hasToolCall)
    else if typeStr = chars "response.reasoning_summary_part.done" then
      let t := jSet [chars "index"] tmplBlockStop
        (.num (rootGetInt root [chars "output_index"]))
      ([[(chars "content_block_stop", t)]], hasToolCall)
    else if typeStr = chars "response.content_part.added" then
      let t := jSet [chars "index"] tmplTextStart
        (.num (rootGetInt root [chars "output_index"]))
      ([[(chars "content_block_start", t)]], hasToolCall)
    else if typeStr = chars "response.output_text.delta" then
      let t := jSet [chars "index"] tmplTextDelta
        (.num (rootGetInt root [chars "output_index"]))
      let t := jSet [chars "delta", chars "text"] t
        (.str (rootGetString root [chars "delta"]))
      ([[(chars "content_block_delta", t)]], hasToolCall)
    else if typeStr = chars "response.content_part.done" then
      let t := jSet [chars "index"] tmplBlockStop
        (.num (rootGetInt root [chars "output_index"]))
      ([[(chars "content_block_stop", t)]], hasToolCall)
    else if typeStr = chars "response.completed" then
      let t :=
        if hasToolCall then
          jSet [chars "delta", chars "stop_reason"] tmplMessageDelta
            (.str (chars "tool_use"))
        else
          jSet [chars "delta", chars "stop_reason"] tmplMessageDelta
            (.str (chars "end_turn"))
      let t := jSet [chars "usage", chars "input_tokens"] t
        (.num (rootGetInt root [chars "response", chars "usage", chars "input_tokens"]))
      let t := jSet [chars "usage", chars "output_tokens"] t
        (.num (rootGetInt root [chars "response", chars "usage", chars "output_tokens"]))
      ([[(chars "message_delta", t),
         (chars "message_stop", .obj [(chars "type", .str (chars "message_stop"))])]],
       hasToolCall)
    else if typeStr = chars "response.output_item.added" then
      if rootGetString root [chars "item", chars "type"] = chars "function_call" then
        let t := jSet [chars "index"] tmplToolUseStart
          (.num (rootGetInt root [chars "output_index"]))
        let t := jSet [chars "content_block", chars "id"] t
          (.str (rootGetString root [chars "item", chars "call_id"]))
        let name := rootGetString root [chars "item", chars "name"]
        let rev := buildReverseMapFromClaudeOriginalShortToOriginal originalRequestRawJSON
        let name :=
          match alistLookup rev name with
          | some orig => orig
          | none => name
        let t := jSet [chars "content_block", chars "name"] t (.str name)
        let d := jSet [chars "index"] tmplInputJsonDelta
          (.num (rootGetInt root [chars "output_index"]))
        ([[(chars "content_block_start", t), (chars "content_block_delta", d)]], true)
      else
        ([[]], hasToolCall)
    else if typeStr = chars "response.output_item.done" then
      if rootGetString root [chars "item", chars "type"] = chars "function_call" then
        let t := jSet [chars "index"] tmplBlockStop
          (.num (rootGetInt root [chars "output_index"]))
        ([[(chars "content_block_stop", t)]], hasToolCall)
      else
        ([[]], hasToolCall)
    else if typeStr = chars "response.function_call_arguments.delta" then
      let t := jSet [chars "index"] tmplInputJsonDelta
        (.num (rootGetInt root [chars "output_index"]))
      let t := jSet [chars "delta", chars "partial_json"] t
        (.str (rootGetString root [chars "delta"]))
      ([[(chars "content_block_delta", t)]], hasToolCall)
    else
      ([[]], hasToolCall)
  else
    ([], hasToolCall)

/-- The upstream event types the streaming converter recognizes. -/
def recognizedStreamTypes : List (List Char) :=
  [chars "response.created",
   chars "response.reasoning_summary_part.added",
   chars "response.reasoning_summary_text.delta",
   chars "response.reasoning_summary_part.done",
   chars "response.content_part.added",
   chars "response.output_text.delta",
   chars "response.content_part.done",
   chars "response.completed",
   chars "response.output_item.added",
   chars "response.output_item.done",
   chars "response.function_call_arguments.delta"]

/-! ## The Codex→Claude non-stream converter (codex_claude_response.go:181)

The Go function returns a JSON string, or `""` to signal "not a terminal
response"; the model returns `Option Json`, with `none` for the empty
string.  (The Go `json.Marshal` error branch is unreachable: every value put
into the response map is marshalable.)  Go marshals a `map[string]any`, whose
key order is not observable; the model keeps the source's insertion order. -/
/-- Concatenated text of a `summary`/`content` part list: each part's `text`
field when present, otherwise the part rendered as a string
(codex_claude_response.go:218). -/
def thinkingFromParts (parts : List Json) : List Char :=
  parts.foldl (fun acc p =>
    acc ++ (match jGet p [chars "text"] with
            | some t => resultString t
            | none => resultString p)) []

/-- The thinking text of a `reasoning` output item: its `summary`
concatenation, falling back to `content` when that is empty
(codex_claude_response.go:215). -/
def thinkingText (item : Json) : List Char :=
  let s1 :=
    match jGet item [chars "summary"] with
    | some (.arr parts) => thinkingFromParts parts
    | some other => resultString other
    | none => []
  if s1 = [] then
    match jGet item [chars "content"] with
    | some (.arr parts) => thinkingFromParts parts
    | some other => resultString other
    | none => []
  else s1

/-- The text blocks of a `message` output item: one block per non-empty
`output_text` part (codex_claude_response.go:252). -/
def textBlocksOf (item : Json) : List Json :=
  match jGet item [chars "content"] with
  | some (.arr parts) =>
    parts.foldl (fun acc p =>
      if jGetString p [chars "type"] = chars "output_text" then
        if jGetString p [chars "text"] ≠ [] then
          acc ++ [Json.obj [(chars "type", .str (chars "text")),
                            (chars "text", .str (jGetString p [chars "text"]))]]
        else acc
      else acc) []
  | some other =>
    if resultString other ≠ [] then
      [Json.obj [(chars "type", .str (chars "text")),
                 (chars "text", .str (resultString other))]]
    else []
  | none => []

/-- The tool-use block of a `function_call` output item: call id, name
restored through the reverse map, and arguments parsed from their JSON-string
form, with an empty object on parse failure (codex_claude_response.go:277). -/
def toolUseBlock (rev : List (List Char × List Char)) (item : Json) : Json :=
  let name := jGetString item [chars "name"]
  let name :=
    match alistLookup rev name with
    | some original => original
    | none => name
  let argsStr := jGetString item [chars "arguments"]
  let input : Json :=
    if argsStr ≠ [] then
      match jsonParse argsStr with
      | some args => args
      | none => .obj []
    else .obj []
  .obj [(chars "type", .str (chars "tool_use")),
        (chars "id", .str (jGetString item [chars "call_id"])),
        (chars "name", .str name),
        (chars "input", input)]

/-- The content blocks contributed by one upstream output item (the switch of
codex_claude_response.go:213). -/
def itemBlocks (rev : List (List Char × List Char)) (item : Json) : List Json :=
  let t := jGetString item [chars "type"]
  if t = chars "reasoning" then
    if thinkingText item ≠ [] then
      [Json.obj [(chars "type", .str (chars "thinking")),
                 (chars "thinking", .str (thinkingText item))]]
    else []
  else if t = chars "message" then textBlocksOf item
  else if t = chars "function_call" then [toolUseBlock rev item]
  else []

/-- The single pass over the upstream `output` array: accumulated content
blocks and the has-tool-call flag. -/
def outputFold (rev : List (List Char × List Char)) (items : List Json) :
    List Json × Bool :=
  items.foldl (fun acc it =>
    (acc.1 ++ itemBlocks rev it,
     acc.2 || decide (jGetString it [chars "type"] = chars "function_call")))
    ([], false)

/-- The terminal-response payload built by the non-stream converter from the
upstream `response` object. -/
def nonStreamBody (rev : List (List Char × List Char)) (responseData : Json) : Json :=
  let ob :=
    match jGet responseData [chars "output"] with
    | some (.arr items) => outputFold rev items
    | _ => ([], false)
  let fallbackStop : Json :=
    if ob.2 then .str (chars "tool_use") else .str (chars "end_turn")
  let stopReason : Json :=
    match jGet responseData [chars "stop_reason"] with
    | some v => if resultString v ≠ [] then .str (resultString v) else fallbackStop
    | none => fallbackStop
  let stopSeq : Json :=
    match jGet responseData [chars "stop_sequence"] with
    | some v => if resultString v ≠ [] then v else .null
    | none => .null
  .obj [
    (chars "id", .str (jGetString responseData [chars "id"])),
    (chars "type", .str (chars "message")),
    (chars "role", .str (chars "assistant")),
    (chars "model", .str (jGetString responseData [chars "model"])),
    (chars "content", .arr ob.1),
    (chars "stop_reason", stopReason),
    (chars "stop_sequence", stopSeq),
    (chars "usage", .obj [
      (chars "input_tokens", .num (jGetInt responseData [chars "usage", chars "input_tokens"])),
      (chars "output_tokens", .num (jGetInt responseData [chars "usage", chars "output_tokens"]))])]

/-- Model of `ConvertCodexResponseToClaudeNonStream`. -/
def ConvertCodexResponseToClaudeNonStream (originalRequestRawJSON rawJSON : Json) :
    Option Json :=
  let revNames := buildReverseMapFromClaudeOriginalShortToOriginal originalRequestRawJSON
  if jGetString rawJSON [chars "type"] ≠ chars "response.completed" then none
  else
    match jGet rawJSON [chars "response"] with
    | none => none
    | some responseData => some (nonStreamBody revNames responseData)

/-! ## The OpenAI→Gemini modalities mapping (ConvertOpenAIRequestToGemini) -/
/-- ASCII lower-casing (model of `strings.ToLower` on the values the
modalities switch recognizes). -/
def asciiToLower (c : Char) : Char :=
  if 'A' ≤ c ∧ c ≤ 'Z' then Char.ofNat (c.toNat + 32) else c

/-- Lower-casing of a modelled Go string. -/
def lowerChars (s : List Char) : List Char := s.map asciiToLower

/-- The switch of the modalities loop: a recognized modality maps to its
upper-cased Gemini name, anything else is skipped. -/
def mapModality (m : Json) : Option (List Char) :=
  let s := lowerChars (resultString m)
  if s = chars "text" then some (chars "TEXT")
  else if s = chars "image" then some (chars "IMAGE")
  else none

/-- The `generationConfig.responseModalities` value that
`ConvertOpenAIRequestToGemini` writes (its modalities block): the recognized
entries of the source `modalities` array, upper-cased in order; `none` when
the source field is missing, not an array, or yields no recognized entry (the
target field is then not written). -/
def convertOpenAIRequestToGemini_responseModalities (req : Json) :
    Option (List (List Char)) :=
  match jGet req [chars "modalities"] with
  | some (.arr ms) =>
    let rms := ms.filterMap mapModality
    if rms = [] then none else some rms
  | _ => none

/-! ## Theorems -/

theorem digitVal_digitChar : ∀ d, d < 10 → digitVal (digitChar d) = d := by decide

theorem digitChar_ne_tilde : ∀ d, digitChar d ≠ '~' := by
  intro d
  unfold digitChar
  split <;> decide

theorem fromDigits_append_one (ds : List Char) (c : Char) :
    fromDigits (ds ++ [c]) = fromDigits ds * 10 + digitVal c := by
  simp [fromDigits, List.foldl_append]

theorem fromDigits_toDigitsAux : ∀ fuel n, n < fuel →
    fromDigits (toDigitsAux fuel n) = n := by
  intro fuel
  induction fuel with
  | zero => intro n h; omega
  | succ f ih =>
    intro n h
    by_cases h10 : n < 10
    · simp [toDigitsAux, h10, fromDigits, digitVal_digitChar n h10]
    · have hdiv : n / 10 < n := Nat.div_lt_self (by omega) (by omega)
      have hlt : n / 10 < f := by omega
      simp only [toDigitsAux, if_neg h10]
      rw [fromDigits_append_one, ih _ hlt, digitVal_digitChar _ (Nat.mod_lt _ (by omega))]
      omega

theorem itoa_injective : Function.Injective itoa := by
  intro a b h
  have ha := fromDigits_toDigitsAux (a + 1) a (Nat.lt_succ_self a)
  have hb := fromDigits_toDigitsAux (b + 1) b (Nat.lt_succ_self b)
  rw [← ha, ← hb]
  unfold itoa at h
  rw [h]

theorem tilde_not_mem_toDigitsAux : ∀ fuel n, '~' ∉ toDigitsAux fuel n := by
  intro fuel
  induction fuel with
  | zero => intro n; simp [toDigitsAux]
  | succ f ih =>
    intro n
    by_cases h10 : n < 10
    · simp only [toDigitsAux, if_pos h10, List.mem_singleton]
      intro h
      exact digitChar_ne_tilde n h.symm
    · simp only [toDigitsAux, if_neg h10, List.mem_append, List.mem_singleton]
      rintro (h | h)
      · exact ih _ h
      · exact digitChar_ne_tilde _ h.symm

theorem tilde_not_mem_itoa (n : Nat) : '~' ∉ itoa n :=
  tilde_not_mem_toDigitsAux _ _

theorem toDigitsAux_ne_nil : ∀ fuel n, n < fuel → toDigitsAux fuel n ≠ [] := by
  intro fuel n h
  cases fuel with
  | zero => omega
  | succ f =>
    by_cases h10 : n < 10 <;> simp [toDigitsAux, h10]

theorem toDigitsAux_length_le : ∀ k fuel n, n < fuel → n < 10 ^ k → 1 ≤ k →
    (toDigitsAux fuel n).length ≤ k := by
  intro k
  induction k with
  | zero => omega
  | succ k ih =>
    intro fuel n hfuel hpow _
    cases fuel with
    | zero => omega
    | succ f =>
      by_cases h10 : n < 10
      · simp [toDigitsAux, h10]
      · have hk1 : 1 ≤ k := by
          by_contra hk
          have : k = 0 := by omega
          subst this
          simp at hpow
          omega
        have hdiv : n / 10 < 10 ^ k := by
          rw [Nat.div_lt_iff_lt_mul (show 0 < 10 by omega)]
          calc n < 10 ^ (k + 1) := hpow
            _ = 10 ^ k * 10 := by ring
        have hdivf : n / 10 < f := by
          have := Nat.div_lt_self (show 0 < n by omega) (show 1 < 10 by omega)
          omega
        simp only [toDigitsAux, if_neg h10, List.length_append, List.length_singleton]
        have := ih f (n / 10) hdivf hdiv hk1
        omega

/-- Length of the decimal rendering: numbers below `10 ^ k` use at most `k`
digits. -/
theorem itoa_length_le (k n : Nat) (hk : 1 ≤ k) (h : n < 10 ^ k) :
    (itoa n).length ≤ k :=
  toDigitsAux_length_le k (n + 1) n (Nat.lt_succ_self n) h hk

theorem goHasPrefix_iff : ∀ (s pat : List Char),
    goHasPrefix s pat = true ↔ ∃ t, s = pat ++ t := by
  intro s pat
  induction pat generalizing s with
  | nil => simp [goHasPrefix]
  | cons p ps ih =>
    cases s with
    | nil => simp [goHasPrefix]
    | cons c s =>
      simp only [goHasPrefix, Bool.and_eq_true, decide_eq_true_eq, ih,
        List.cons_append, List.cons.injEq]
      constructor
      · rintro ⟨rfl, t, rfl⟩
        exact ⟨t, rfl, rfl⟩
      · rintro ⟨t, rfl, rfl⟩
        exact ⟨rfl, t, rfl⟩

example : shortenNameIfNeeded (chars "short") = chars "short" := by decide

example :
    shortenNameIfNeeded
      (chars "mcp__server__really_long_tool_name_that_exceeds_the_limit_aaaaaaaaaaaaaaa")
      = (chars "mcp__really_long_tool_name_that_exceeds_the_limit_aaaaaaaaaaaaaaa").take 64 := by
  decide

example :
    buildShortNameMap [chars "aa", chars "aa"] = [(chars "aa", chars "aa~1")] := by
  decide

theorem lastIndexLe_ge (s pat : List Char) :
    ∀ i j, j ≤ i → goHasPrefix (s.drop j) pat = true →
      ∃ k, lastIndexLe s pat i = some k ∧ j ≤ k := by
  intro i
  induction i with
  | zero =>
    intro j hj hocc
    interval_cases j
    simp only [List.drop_zero] at hocc
    exact ⟨0, by simp [lastIndexLe, hocc], Nat.le_refl 0⟩
  | succ i ih =>
    intro j hj hocc
    by_cases htop : goHasPrefix (s.drop (i + 1)) pat = true
    · exact ⟨i + 1, by simp [lastIndexLe, htop], by omega⟩
    · have hji : j ≤ i := by
        rcases Nat.lt_or_ge j (i + 1) with h | h
        · omega
        · exfalso
          have : j = i + 1 := by omega
          subst this
          exact htop hocc
      obtain ⟨k, hk, hjk⟩ := ih j hji hocc
      exact ⟨k, by simp [lastIndexLe, htop, hk], hjk⟩

/-- A long name with the `mcp__` prefix always contains `"__"`, so
`strings.LastIndex` finds an occurrence at index at least 3. -/
theorem lastIndex_of_mcp (name : List Char) (hp : goHasPrefix name mcpTag = true)
    (hl : 64 < name.length) :
    ∃ idx, lastIndex name (chars "__") = some idx ∧ 3 ≤ idx := by
  obtain ⟨t, rfl⟩ := (goHasPrefix_iff name mcpTag).mp hp
  have hocc : goHasPrefix ((mcpTag ++ t).drop 3) (chars "__") = true := by
    simp [mcpTag, chars, goHasPrefix]
  have h3 : 3 ≤ (mcpTag ++ t).length := by
    simp only [List.length_append]
    simp [mcpTag, chars]
    omega
  obtain ⟨k, hk, h3k⟩ := lastIndexLe_ge (mcpTag ++ t) (chars "__") (mcpTag ++ t).length 3 h3 hocc
  exact ⟨k, hk, h3k⟩

/-- C3: the code's `shortenNameIfNeeded` coincides with the spec's
`ShortenIfNeeded` contract (§4.3): names of at most 64 characters are
unchanged; longer names of the form `mcp__<...>__<segment>` become
`"mcp__" + <last segment>` truncated to 64 if still too long; other long
names are cut to their first 64 characters. -/
theorem claim_C3_shortenNameIfNeeded_meets_contract (name : List Char) :
    shortenNameIfNeeded name = specShortenIfNeeded name := by
  unfold shortenNameIfNeeded specShortenIfNeeded
  by_cases hlen : name.length ≤ 64
  · simp [hlen]
  · simp only [if_neg hlen]
    by_cases hp : goHasPrefix name mcpTag = true
    · obtain ⟨idx, hidx, h3⟩ := lastIndex_of_mcp name hp (by omega)
      simp only [hp, if_pos, specLastSegment, hidx]
      have h0 : 0 < idx := by omega
      simp [h0]
    · simp only [Bool.not_eq_true] at hp
      simp [hp]

/-! ## Termination and freshness of the collision loop -/
/-- Of two suffix decompositions of one list, the shorter suffix is a suffix
of the longer one. -/
theorem suffix_of_append_eq_append (A1 s1 A2 s2 : List Char)
    (h : A1 ++ s1 = A2 ++ s2) (hle : s1.length ≤ s2.length) :
    ∃ X, s2 = X ++ s1 := by
  have hlen : A1.length + s1.length = A2.length + s2.length := by
    have := congrArg List.length h
    simpa using this
  have hA : A2.length ≤ A1.length := by omega
  refine ⟨A1.drop A2.length, ?_⟩
  have h2 : (A2 ++ s2).drop A2.length = s2 := by
    rw [List.drop_append_eq_append_drop]
    simp
  have h1 : (A1 ++ s1).drop A2.length = A1.drop A2.length ++ s1 := by
    rw [List.drop_append_eq_append_drop]
    have : A2.length - A1.length = 0 := by omega
    rw [this]
    simp
  rw [← h2, ← h, h1]

/-- The candidates tried by the collision loop are pairwise distinct: `"~i"`
determines `i` because decimal renderings are injective and contain no `'~'`. -/
theorem tmpCand_inj (base : List Char) : ∀ i j, tmpCand base i = tmpCand base j → i = j := by
  have key : ∀ i j, (itoa i).length ≤ (itoa j).length →
      tmpCand base i = tmpCand base j → i = j := by
    intro i j hlen heq
    unfold tmpCand at heq
    obtain ⟨X, hX⟩ := suffix_of_append_eq_append _ _ _ _ heq (by simp; omega)
    cases X with
    | nil =>
      simp only [List.nil_append, List.cons.injEq] at hX
      exact itoa_injective hX.2.symm
    | cons x X =>
      exfalso
      have hx : x = '~' := by
        have := congrArg (fun l => l.head?) hX
        simpa using this.symm
      subst hx
      have : '~' ∈ itoa j := by
        have := congrArg (fun l => l.tail) hX
        simp only [List.cons_append, List.tail_cons] at this
        rw [this]
        simp
      exact tilde_not_mem_itoa j this
  intro i j heq
  rcases Nat.le_total (itoa i).length (itoa j).length with h | h
  · exact key i j h heq
  · exact (key j i h heq.symm).symm

/-- If the collision loop runs out of fuel, every candidate it inspected was
already in `used`. -/
theorem makeUniqueLoop_none_mem (used : List (List Char)) (base : List Char) :
    ∀ fuel i, makeUniqueLoop used base fuel i = none →
      ∀ k, i ≤ k → k < i + fuel → tmpCand base k ∈ used := by
  intro fuel
  induction fuel with
  | zero => intro i _ k _ _; omega
  | succ f ih =>
    intro i h k hik hk
    by_cases hmem : tmpCand base i ∈ used
    · rcases Nat.eq_or_lt_of_le hik with rfl | hlt
      · exact hmem
      · simp only [makeUniqueLoop, if_pos hmem] at h
        exact ih (i + 1) h k hlt (by omega)
    · simp [makeUniqueLoop, hmem] at h

/-- If the collision loop finds a candidate, it is a fresh one of the form
`tmpCand base k` with `k` below `i + fuel`. -/
theorem makeUniqueLoop_some (used : List (List Char)) (base : List Char) :
    ∀ fuel i t, makeUniqueLoop used base fuel i = some t →
      t ∉ used ∧ ∃ k, i ≤ k ∧ k < i + fuel ∧ t = tmpCand base k := by
  intro fuel
  induction fuel with
  | zero => intro i t h; simp [makeUniqueLoop] at h
  | succ f ih =>
    intro i t h
    by_cases hmem : tmpCand base i ∈ used
    · simp only [makeUniqueLoop, if_pos hmem] at h
      obtain ⟨hnot, k, hik, hk, rfl⟩ := ih (i + 1) t h
      exact ⟨hnot, k, by omega, by omega, rfl⟩
    · simp only [makeUniqueLoop, if_neg hmem, Option.some.injEq] at h
      subst h
      exact ⟨hmem, i, Nat.le_refl i, by omega, rfl⟩

/-- Pigeonhole: with fuel `used.length + 1` the loop cannot exhaust its
candidates, because they are pairwise distinct and `used` is finite. -/
theorem makeUniqueLoop_succeeds (used : List (List Char)) (base : List Char) :
    ∃ t, makeUniqueLoop used base (used.length + 1) 1 = some t := by
  cases hres : makeUniqueLoop used base (used.length + 1) 1 with
  | some t => exact ⟨t, rfl⟩
  | none =>
    exfalso
    have hall := makeUniqueLoop_none_mem used base (used.length + 1) 1 hres
    set L : List (List Char) :=
      (List.range (used.length + 1)).map (fun k => tmpCand base (k + 1)) with hL
    have hnodup : L.Nodup := by
      refine List.Nodup.map ?_ (List.nodup_range _)
      intro a b hab
      have := tmpCand_inj base (a + 1) (b + 1) hab
      omega
    have hsub : ∀ x ∈ L, x ∈ used := by
      intro x hx
      rw [hL] at hx
      simp only [List.mem_map, List.mem_range] at hx
      obtain ⟨k, hk, rfl⟩ := hx
      exact hall (k + 1) (by omega) (by omega)
    have hcard : L.toFinset.card = used.length + 1 := by
      rw [List.toFinset_card_of_nodup hnodup, hL]
      simp
    have hle : L.toFinset.card ≤ used.toFinset.card := by
      apply Finset.card_le_card
      intro x hx
      rw [List.mem_toFinset] at hx ⊢
      exact hsub x hx
    have := List.toFinset_card_le used
    omega

/-- Candidates within the loop's reachable index range stay within the
64-character limit. -/
theorem tmpCand_length_le (base : List Char) (k : Nat) (hd : (itoa k).length ≤ 63) :
    (tmpCand base k).length ≤ 64 := by
  unfold tmpCand
  simp only [List.length_append, List.length_cons]
  by_cases hb : base.length > 64 - ((itoa k).length + 1)
  · simp only [if_pos hb, List.length_take]
    omega
  · simp only [if_neg hb]
    omega

/-- `makeUnique` never returns a name that is already used. -/
theorem makeUnique_not_mem (used : List (List Char)) (cand : List Char) :
    makeUnique used cand ∉ used := by
  unfold makeUnique
  by_cases hmem : cand ∈ used
  · obtain ⟨t, ht⟩ := makeUniqueLoop_succeeds used cand
    simp only [if_pos hmem, ht]
    exact (makeUniqueLoop_some used cand _ 1 t ht).1
  · simp [hmem]

/-- `makeUnique` keeps the 64-character bound as long as the used set is
smaller than `10^63` (amply satisfied by any Go slice, whose length is below
`2^63`). -/
theorem makeUnique_length_le (used : List (List Char)) (cand : List Char)
    (hc : cand.length ≤ 64) (hsize : used.length + 1 < 10 ^ 63) :
    (makeUnique used cand).length ≤ 64 := by
  unfold makeUnique
  by_cases hmem : cand ∈ used
  · obtain ⟨t, ht⟩ := makeUniqueLoop_succeeds used cand
    simp only [if_pos hmem, ht]
    obtain ⟨-, k, hk1, hk2, rfl⟩ := makeUniqueLoop_some used cand _ 1 t ht
    apply tmpCand_length_le
    apply itoa_length_le 63 k (by omega)
    calc k < 1 + (used.length + 1) := hk2
      _ ≤ 10 ^ 63 := by omega
    
  · simpa [hmem] using hc

theorem mem_usedInsert (u : List (List Char)) (y x : List Char) :
    x ∈ usedInsert u y ↔ x ∈ u ∨ x = y := by
  unfold usedInsert
  by_cases h : y ∈ u
  · simp only [if_pos h]
    constructor
    · exact Or.inl
    · rintro (hx | rfl)
      · exact hx
      · exact h
  · simp only [if_neg h, List.mem_cons]
    tauto

theorem length_usedInsert (u : List (List Char)) (y : List Char) :
    (usedInsert u y).length ≤ u.length + 1 := by
  unfold usedInsert
  by_cases h : y ∈ u <;> simp [h]

theorem alistInsert_cons_eq (k' v' k v : List Char)
    (rest : List (List Char × List Char)) (h : k' = k) :
    alistInsert ((k', v') :: rest) k v = (k, v) :: rest := by
  simp [alistInsert, h]

theorem alistInsert_cons_ne (k' v' k v : List Char)
    (rest : List (List Char × List Char)) (h : ¬ k' = k) :
    alistInsert ((k', v') :: rest) k v = (k', v') :: alistInsert rest k v := by
  simp [alistInsert, h]

theorem mapValues_cons (a b : List Char) (m : List (List Char × List Char)) :
    mapValues ((a, b) :: m) = b :: mapValues m := rfl

theorem mapKeys_cons (a b : List Char) (m : List (List Char × List Char)) :
    mapKeys ((a, b) :: m) = a :: mapKeys m := rfl

theorem mem_mapValues_alistInsert :
    ∀ (m : List (List Char × List Char)) (k v x : List Char),
      x ∈ mapValues (alistInsert m k v) → x ∈ mapValues m ∨ x = v
  | [], k, v, x, h => by
    right
    simpa [alistInsert, mapValues] using h
  | (k', v') :: rest, k, v, x, h => by
    by_cases hk : k' = k
    · rw [alistInsert_cons_eq k' v' k v rest hk, mapValues_cons] at h
      rcases List.mem_cons.mp h with rfl | h2
      · exact Or.inr rfl
      · exact Or.inl (by rw [mapValues_cons]; exact List.mem_cons_of_mem _ h2)
    · rw [alistInsert_cons_ne k' v' k v rest hk, mapValues_cons] at h
      rcases List.mem_cons.mp h with rfl | h2
      · exact Or.inl (by rw [mapValues_cons]; exact List.mem_cons_self _ _)
      · rcases mem_mapValues_alistInsert rest k v x h2 with h3 | h3
        · exact Or.inl (by rw [mapValues_cons]; exact List.mem_cons_of_mem _ h3)
        · exact Or.inr h3

theorem mem_mapKeys_alistInsert :
    ∀ (m : List (List Char × List Char)) (k v x : List Char),
      x ∈ mapKeys (alistInsert m k v) → x ∈ mapKeys m ∨ x = k
  | [], k, v, x, h => by
    right
    simpa [alistInsert, mapKeys] using h
  | (k', v') :: rest, k, v, x, h => by
    by_cases hk : k' = k
    · rw [alistInsert_cons_eq k' v' k v rest hk, mapKeys_cons] at h
      rcases List.mem_cons.mp h with rfl | h2
      · exact Or.inr rfl
      · exact Or.inl (by rw [mapKeys_cons]; exact List.mem_cons_of_mem _ h2)
    · rw [alistInsert_cons_ne k' v' k v rest hk, mapKeys_cons] at h
      rcases List.mem_cons.mp h with rfl | h2
      · exact Or.inl (by rw [mapKeys_cons]; exact List.mem_cons_self _ _)
      · rcases mem_mapKeys_alistInsert rest k v x h2 with h3 | h3
        · exact Or.inl (by rw [mapKeys_cons]; exact List.mem_cons_of_mem _ h3)
        · exact Or.inr h3

theorem mapValues_nodup_alistInsert :
    ∀ (m : List (List Char × List Char)) (k v : List Char),
      (mapValues m).Nodup → v ∉ mapValues m →
      (mapValues (alistInsert m k v)).Nodup
  | [], k, v, _, _ => by simp [alistInsert, mapValues]
  | (k', v') :: rest, k, v, hnd, hv => by
    rw [mapValues_cons, List.nodup_cons] at hnd
    rw [mapValues_cons, List.mem_cons] at hv
    push_neg at hv
    by_cases hk : k' = k
    · rw [alistInsert_cons_eq k' v' k v rest hk, mapValues_cons, List.nodup_cons]
      exact ⟨hv.2, hnd.2⟩
    · rw [alistInsert_cons_ne k' v' k v rest hk, mapValues_cons, List.nodup_cons]
      constructor
      · intro hmem
        rcases mem_mapValues_alistInsert rest k v v' hmem with h3 | h3
        · exact hnd.1 h3
        · exact hv.1 h3.symm
      · exact mapValues_nodup_alistInsert rest k v hnd.2 hv.2

theorem mapKeys_nodup_alistInsert :
    ∀ (m : List (List Char × List Char)) (k v : List Char),
      (mapKeys m).Nodup → (mapKeys (alistInsert m k v)).Nodup
  | [], k, v, _ => by simp [alistInsert, mapKeys]
  | (k', v') :: rest, k, v, hnd => by
    rw [mapKeys_cons, List.nodup_cons] at hnd
    by_cases hk : k' = k
    · rw [alistInsert_cons_eq k' v' k v rest hk, mapKeys_cons, List.nodup_cons]
      rw [hk] at hnd
      exact hnd
    · rw [alistInsert_cons_ne k' v' k v rest hk, mapKeys_cons, List.nodup_cons]
      constructor
      · intro hmem
        rcases mem_mapKeys_alistInsert rest k v k' hmem with h3 | h3
        · exact hnd.1 h3
        · exact hk h3
      · exact mapKeys_nodup_alistInsert rest k v hnd.2

theorem alistLookup_alistInsert_self :
    ∀ (m : List (List Char × List Char)) (k v : List Char),
      alistLookup (alistInsert m k v) k = some v
  | [], k, v => by simp [alistInsert, alistLookup]
  | (k', v') :: rest, k, v => by
    by_cases hk : k' = k
    · rw [alistInsert_cons_eq k' v' k v rest hk]
      simp [alistLookup]
    · rw [alistInsert_cons_ne k' v' k v rest hk]
      simp only [alistLookup, if_neg hk]
      exact alistLookup_alistInsert_self rest k v

theorem alistLookup_alistInsert_ne :
    ∀ (m : List (List Char × List Char)) (k v k2 : List Char), k2 ≠ k →
      alistLookup (alistInsert m k v) k2 = alistLookup m k2
  | [], k, v, k2, h => by
    simp only [alistInsert, alistLookup]
    rw [if_neg (fun he => h he.symm)]
  | (k', v') :: rest, k, v, k2, h => by
    by_cases hk : k' = k
    · subst hk
      rw [alistInsert_cons_eq k' v' k' v rest rfl]
      simp only [alistLookup]
      rw [if_neg (fun he => h he.symm), if_neg (fun he => h he.symm)]
    · rw [alistInsert_cons_ne k' v' k v rest hk]
      simp only [alistLookup]
      by_cases hk2 : k' = k2
      · rw [if_pos hk2, if_pos hk2]
      · rw [if_neg hk2, if_neg hk2]
        exact alistLookup_alistInsert_ne rest k v k2 h

theorem alistLookup_mem :
    ∀ (m : List (List Char × List Char)) (k v : List Char),
      alistLookup m k = some v → (k, v) ∈ m
  | [], k, v, h => by simp [alistLookup] at h
  | (k', v') :: rest, k, v, h => by
    by_cases hk : k' = k
    · subst hk
      have hv : v' = v := by simpa [alistLookup] using h
      subst hv
      exact List.mem_cons_self _ _
    · simp only [alistLookup, if_neg hk] at h
      exact List.mem_cons_of_mem _ (alistLookup_mem rest k v h)

theorem baseCandidate_length_le (n : List Char) : (baseCandidate n).length ≤ 64 := by
  unfold baseCandidate
  by_cases h1 : n.length ≤ 64
  · simp only [if_pos h1]
    exact h1
  · simp only [if_neg h1]
    by_cases h2 : goHasPrefix n mcpTag = true
    · simp only [h2, if_pos]
      cases hli : lastIndex n (chars "__") with
      | none => simp [List.length_take]
      | some idx =>
        by_cases h0 : 0 < idx
        · simp only [if_pos h0]
          by_cases h3 : (mcpTag ++ n.drop (idx + 2)).length > 64
          · rw [if_pos h3]
            simp only [List.length_take]
            omega
          · rw [if_neg h3]
            omega
        · simp [h0, List.length_take]
    · simp only [Bool.not_eq_true] at h2
      simp [h2, List.length_take]

/-- The main inductive invariant of `buildShortNameMap`: every processed name
gets an entry, all values stay within 64 characters, values are pairwise
distinct (and recorded in `used`), and keys are pairwise distinct. -/
theorem buildShortNameMapAux_invariant :
    ∀ (rest used : List (List Char)) (m : List (List Char × List Char)),
      used.length + rest.length < 10 ^ 63 →
      (∀ v ∈ mapValues m, v.length ≤ 64) →
      (mapValues m).Nodup →
      (mapKeys m).Nodup →
      (∀ v ∈ mapValues m, v ∈ used) →
      (∀ v ∈ mapValues (buildShortNameMapAux rest used m), v.length ≤ 64) ∧
      (mapValues (buildShortNameMapAux rest used m)).Nodup ∧
      (mapKeys (buildShortNameMapAux rest used m)).Nodup ∧
      (∀ n, n ∈ rest ∨ (∃ s, alistLookup m n = some s) →
        ∃ s, alistLookup (buildShortNameMapAux rest used m) n = some s)
  | [], used, m, _, h64, hvnd, hknd, _ => by
    refine ⟨h64, hvnd, hknd, ?_⟩
    intro n hn
    rcases hn with hn | hn
    · simp at hn
    · simpa [buildShortNameMapAux] using hn
  | n :: rest, used, m, hsize, h64, hvnd, hknd, hused => by
    have hfresh : makeUnique used (baseCandidate n) ∉ used :=
      makeUnique_not_mem used (baseCandidate n)
    have huniq64 : (makeUnique used (baseCandidate n)).length ≤ 64 := by
      apply makeUnique_length_le used _ (baseCandidate_length_le n)
      simp only [List.length_cons] at hsize
      omega
    set uniq := makeUnique used (baseCandidate n) with huniq
    have hnotval : uniq ∉ mapValues m := fun hmem => hfresh (hused uniq hmem)
    have hstep64 : ∀ v ∈ mapValues (alistInsert m n uniq), v.length ≤ 64 := by
      intro v hv
      rcases mem_mapValues_alistInsert m n uniq v hv with h | rfl
      · exact h64 v h
      · exact huniq64
    have hstepnd : (mapValues (alistInsert m n uniq)).Nodup :=
      mapValues_nodup_alistInsert m n uniq hvnd hnotval
    have hstepknd : (mapKeys (alistInsert m n uniq)).Nodup :=
      mapKeys_nodup_alistInsert m n uniq hknd
    have hstepused : ∀ v ∈ mapValues (alistInsert m n uniq), v ∈ usedInsert used uniq := by
      intro v hv
      rcases mem_mapValues_alistInsert m n uniq v hv with h | rfl
      · exact (mem_usedInsert used uniq v).mpr (Or.inl (hused v h))
      · exact (mem_usedInsert used uniq uniq).mpr (Or.inr rfl)
    have hstepsize : (usedInsert used uniq).length + rest.length < 10 ^ 63 := by
      have := length_usedInsert used uniq
      simp only [List.length_cons] at hsize
      omega
    obtain ⟨ih64, ihnd, ihknd, ihtot⟩ :=
      buildShortNameMapAux_invariant rest (usedInsert used uniq) (alistInsert m n uniq)
        hstepsize hstep64 hstepnd hstepknd hstepused
    refine ⟨?_, ?_, ?_, ?_⟩
    · simpa [buildShortNameMapAux] using ih64
    · simpa [buildShortNameMapAux] using ihnd
    · simpa [buildShortNameMapAux] using ihknd
    · intro n2 hn2
      have goal2 : ∃ s, alistLookup
          (buildShortNameMapAux rest (usedInsert used uniq) (alistInsert m n uniq)) n2 = some s := by
        rcases hn2 with hn2 | ⟨s, hs⟩
        · rcases List.mem_cons.mp hn2 with rfl | hn2
          · exact ihtot n2 (Or.inr ⟨uniq, alistLookup_alistInsert_self m n2 uniq⟩)
          · exact ihtot n2 (Or.inl hn2)
        · by_cases he : n2 = n
          · subst he
            exact ihtot n2 (Or.inr ⟨uniq, alistLookup_alistInsert_self m n2 uniq⟩)
          · refine ihtot n2 (Or.inr ⟨s, ?_⟩)
            rw [alistLookup_alistInsert_ne m n uniq n2 he]
            exact hs
      simpa [buildShortNameMapAux] using goal2

/-- C1: for every finite name list (any list a Go slice can hold, i.e. fewer
than `2^63` entries), `buildShortNameMap` yields a map that is total — every
input name, including duplicated ones, has an entry — whose values are all at
most 64 characters long and pairwise distinct, and the function is
deterministic (it is a pure function of the ordered input list). -/
theorem claim_C1_buildShortNameMap_invariants (names : List (List Char))
    (hN : names.length < 2 ^ 63) :
    (∀ n ∈ names, ∃ s, alistLookup (buildShortNameMap names) n = some s) ∧
    (∀ v ∈ mapValues (buildShortNameMap names), v.length ≤ 64) ∧
    (mapValues (buildShortNameMap names)).Nodup ∧
    buildShortNameMap names = buildShortNameMap names := by
  have hpow : (2 : Nat) ^ 63 < 10 ^ 63 :=
    Nat.pow_lt_pow_left (by omega) (by omega)
  obtain ⟨h1, h2, h3, h4⟩ :=
    buildShortNameMapAux_invariant names [] []
      (by simpa using lt_trans hN hpow)
      (by simp [mapValues]) (by simp [mapValues]) (by simp [mapKeys])
      (by simp [mapValues])
  exact ⟨fun n hn => h4 n (Or.inl hn), h1, h2, rfl⟩

/-- C1 witness: a concrete list with a duplicate name. -/
theorem claim_C1_witness :
    (∀ n ∈ [chars "aa", chars "aa"],
      ∃ s, alistLookup (buildShortNameMap [chars "aa", chars "aa"]) n = some s) ∧
    (∀ v ∈ mapValues (buildShortNameMap [chars "aa", chars "aa"]), v.length ≤ 64) ∧
    (mapValues (buildShortNameMap [chars "aa", chars "aa"])).Nodup ∧
    buildShortNameMap [chars "aa", chars "aa"] =
      buildShortNameMap [chars "aa", chars "aa"] :=
  claim_C1_buildShortNameMap_invariants [chars "aa", chars "aa"] (by norm_num)

/-- C9: the collision-resolution loop of `buildShortNameMap` terminates on
every input: within `used.length + 1` iterations it finds a candidate that is
not yet used, because the candidates `~1, ~2, …` are pairwise distinct and the
used set is finite. -/
theorem claim_C9_makeUnique_loop_terminates (used : List (List Char))
    (base : List Char) :
    ∃ t, makeUniqueLoop used base (used.length + 1) 1 = some t ∧ t ∉ used := by
  obtain ⟨t, ht⟩ := makeUniqueLoop_succeeds used base
  exact ⟨t, ht, (makeUniqueLoop_some used base _ 1 t ht).1⟩

example :
    jSet [chars "a", chars "b"] (.obj [(chars "a", .obj [(chars "b", .num 1)])]) (.num 2)
      = .obj [(chars "a", .obj [(chars "b", .num 2)])] := rfl

example :
    jsonParse (chars "\x7b\"x\":1\x7d") = some (.obj [(chars "x", .num 1)]) := rfl

example : jsonParse (chars "\x7bbad") = none := rfl

example :
    jsonParse (chars " \x7b\"a\":[1,-2,\"s\"],\"b\":\x7b\x7d\x7d ")
      = some (.obj [(chars "a", .arr [.num 1, .num (-2), .str (chars "s")]),
                    (chars "b", .obj [])]) := rfl

theorem mem_mapValues_of_mem {m : List (List Char × List Char)}
    {p : List Char × List Char} (hp : p ∈ m) : p.2 ∈ mapValues m :=
  List.mem_map_of_mem _ hp

theorem revFold_preserve :
    ∀ (entries : List (List Char × List Char)) (acc : List (List Char × List Char))
      (v k : List Char),
      alistLookup acc v = some k → (∀ p ∈ entries, p.2 ≠ v) →
      alistLookup (entries.foldl (fun a p => alistInsert a p.2 p.1) acc) v = some k
  | [], acc, v, k, hacc, _ => by simpa using hacc
  | p :: rest, acc, v, k, hacc, hne => by
    simp only [List.foldl_cons]
    apply revFold_preserve rest _ v k
    · rw [alistLookup_alistInsert_ne acc p.2 p.1 v
        (Ne.symm (hne p (List.mem_cons_self _ _)))]
      exact hacc
    · intro q hq
      exact hne q (List.mem_cons_of_mem _ hq)

theorem revFold_lookup :
    ∀ (m : List (List Char × List Char)) (acc : List (List Char × List Char)),
      (mapValues m).Nodup →
      (∀ p ∈ m, alistLookup acc p.2 = none) →
      ∀ k v, (k, v) ∈ m →
        alistLookup (m.foldl (fun a p => alistInsert a p.2 p.1) acc) v = some k
  | [], _, _, _, k, v, hmem => by simp at hmem
  | (k0, v0) :: rest, acc, hnd, hacc, k, v, hmem => by
    rw [mapValues_cons, List.nodup_cons] at hnd
    simp only [List.foldl_cons]
    rcases List.mem_cons.mp hmem with heq | hmem2
    · injection heq with h1 h2
      subst h1
      subst h2
      apply revFold_preserve rest _ v k
      · exact alistLookup_alistInsert_self acc v k
      · intro q hq hqv
        exact hnd.1 (hqv ▸ mem_mapValues_of_mem hq)
    · apply revFold_lookup rest _ hnd.2 _ k v hmem2
      intro p hp
      have hne : p.2 ≠ v0 := by
        intro he
        exact hnd.1 (he ▸ mem_mapValues_of_mem hp)
      rw [alistLookup_alistInsert_ne acc v0 k0 p.2 hne]
      exact hacc p (List.mem_cons_of_mem _ hp)

/-- Pairwise distinctness of `buildShortNameMap` values, with no size
hypothesis (it follows from freshness of `makeUnique` alone). -/
theorem buildShortNameMapAux_values_nodup :
    ∀ (rest used : List (List Char)) (m : List (List Char × List Char)),
      (mapValues m).Nodup →
      (∀ v ∈ mapValues m, v ∈ used) →
      (mapValues (buildShortNameMapAux rest used m)).Nodup
  | [], _, m, hnd, _ => by simpa [buildShortNameMapAux] using hnd
  | n :: rest, used, m, hnd, hused => by
    have hfresh : makeUnique used (baseCandidate n) ∉ used :=
      makeUnique_not_mem used (baseCandidate n)
    set uniq := makeUnique used (baseCandidate n) with huniq
    have hnotval : uniq ∉ mapValues m := fun hmem => hfresh (hused uniq hmem)
    have hstepnd : (mapValues (alistInsert m n uniq)).Nodup :=
      mapValues_nodup_alistInsert m n uniq hnd hnotval
    have hstepused : ∀ v ∈ mapValues (alistInsert m n uniq), v ∈ usedInsert used uniq := by
      intro v hv
      rcases mem_mapValues_alistInsert m n uniq v hv with h | rfl
      · exact (mem_usedInsert used uniq v).mpr (Or.inl (hused v h))
      · exact (mem_usedInsert used uniq uniq).mpr (Or.inr rfl)
    have := buildShortNameMapAux_values_nodup rest (usedInsert used uniq)
      (alistInsert m n uniq) hstepnd hstepused
    simpa [buildShortNameMapAux] using this

theorem buildShortNameMap_values_nodup (names : List (List Char)) :
    (mapValues (buildShortNameMap names)).Nodup :=
  buildShortNameMapAux_values_nodup names [] [] (by simp [mapValues]) (by simp [mapValues])

/-- C2: round-trip of tool-name shortening.  If a tool name `n` (longer than
64 characters) of the original request is shortened to `s` by
`buildShortNameMap`, then the reverse map the response path recomputes from
the original request sends `s` back to `n`. -/
theorem claim_C2_shorten_roundTrip (req : Json) (n s : List Char)
    (hmem : n ∈ claudeToolNames req) (_hlong : 64 < n.length)
    (hshort : alistLookup (buildShortNameMap (claudeToolNames req)) n = some s) :
    alistLookup (buildReverseMapFromClaudeOriginalShortToOriginal req) s = some n := by
  have hne : claudeToolNames req ≠ [] := by
    intro h
    rw [h] at hmem
    simp at hmem
  unfold buildReverseMapFromClaudeOriginalShortToOriginal
  simp only [if_neg hne]
  apply revFold_lookup (buildShortNameMap (claudeToolNames req)) []
    (buildShortNameMap_values_nodup (claudeToolNames req))
    (fun p _ => rfl) n s
  exact alistLookup_mem _ _ _ hshort

/-- C2 witness: a 70-character tool name shortens to its first 64 characters
and the reverse map restores it. -/
theorem claim_C2_witness :
    alistLookup
      (buildReverseMapFromClaudeOriginalShortToOriginal
        (.obj [(chars "tools",
          .arr [.obj [(chars "name",
            .str (chars "aaaaaaaaaaaaaaaaaaaaaaaaaaaaaaaaaaaaaaaaaaaaaaaaaaaaaaaaaaaaaaaaaaaaaa"))]])]))
      (chars "aaaaaaaaaaaaaaaaaaaaaaaaaaaaaaaaaaaaaaaaaaaaaaaaaaaaaaaaaaaaaaaa")
      = some (chars "aaaaaaaaaaaaaaaaaaaaaaaaaaaaaaaaaaaaaaaaaaaaaaaaaaaaaaaaaaaaaaaaaaaaaa") :=
  claim_C2_shorten_roundTrip
    (.obj [(chars "tools",
      .arr [.obj [(chars "name",
        .str (chars "aaaaaaaaaaaaaaaaaaaaaaaaaaaaaaaaaaaaaaaaaaaaaaaaaaaaaaaaaaaaaaaaaaaaaa"))]])])
    (chars "aaaaaaaaaaaaaaaaaaaaaaaaaaaaaaaaaaaaaaaaaaaaaaaaaaaaaaaaaaaaaaaaaaaaaa")
    (chars "aaaaaaaaaaaaaaaaaaaaaaaaaaaaaaaaaaaaaaaaaaaaaaaaaaaaaaaaaaaaaaaa")
    (by decide) (by decide) (by decide)

/-- C4: on the session-completed event (`response.completed`) the streaming
converter emits one fragment holding a `message_delta` whose `stop_reason` is
`tool_use` when the per-stream state recorded a tool call and `end_turn`
otherwise, with `input_tokens`/`output_tokens` copied from the upstream
payload's `response.usage`, followed by a `message_stop` event; the state is
unchanged. -/
theorem claim_C4_completed_emits_delta_then_stop (req : Json) (line : List Char)
    (j : Json) (b : Bool)
    (hpre : goHasPrefix line dataTag = true)
    (hparse : jsonParse (trimSpace (line.drop 5)) = some j)
    (htype : jGetString j [chars "type"] = chars "response.completed") :
    ConvertCodexResponseToClaude req line (some b) =
      ([[(chars "message_delta", .obj [
          (chars "type", .str (chars "message_delta")),
          (chars "delta", .obj [
            (chars "stop_reason",
              .str (if b then chars "tool_use" else chars "end_turn")),
            (chars "stop_sequence", .null)]),
          (chars "usage", .obj [
            (chars "input_tokens",
              .num (jGetInt j [chars "response", chars "usage", chars "input_tokens"])),
            (chars "output_tokens",
              .num (jGetInt j [chars "response", chars "usage", chars "output_tokens"]))])]),
        (chars "message_stop", .obj [(chars "type", .str (chars "message_stop"))])]],
       b) := by
  cases b <;>
  · unfold ConvertCodexResponseToClaude
    rw [if_pos hpre]
    simp only [hparse, rootGetString, rootGetInt, htype]
    rfl

/-- C4 witness: a concrete completed event with usage counts, in a session
that saw a tool call. -/
theorem claim_C4_witness :
    ConvertCodexResponseToClaude .null
      (chars "data: \x7b\"type\":\"response.completed\",\"response\":\x7b\"usage\":\x7b\"input_tokens\":3,\"output_tokens\":7\x7d\x7d\x7d")
      (some true) =
      ([[(chars "message_delta", .obj [
          (chars "type", .str (chars "message_delta")),
          (chars "delta", .obj [
            (chars "stop_reason", .str (if true then chars "tool_use" else chars "end_turn")),
            (chars "stop_sequence", .null)]),
          (chars "usage", .obj [
            (chars "input_tokens", .num (jGetInt
              (.obj [(chars "usage", .obj [
                  (chars "input_tokens", .num 3), (chars "output_tokens", .num 7)])]
                |> fun u => .obj [(chars "type", .str (chars "response.completed")),
                                  (chars "response", u)])
              [chars "response", chars "usage", chars "input_tokens"])),
            (chars "output_tokens", .num (jGetInt
              (.obj [(chars "usage", .obj [
                  (chars "input_tokens", .num 3), (chars "output_tokens", .num 7)])]
                |> fun u => .obj [(chars "type", .str (chars "response.completed")),
                                  (chars "response", u)])
              [chars "response", chars "usage", chars "output_tokens"]))])]),
        (chars "message_stop", .obj [(chars "type", .str (chars "message_stop"))])]],
       true) :=
  claim_C4_completed_emits_delta_then_stop .null
    (chars "data: \x7b\"type\":\"response.completed\",\"response\":\x7b\"usage\":\x7b\"input_tokens\":3,\"output_tokens\":7\x7d\x7d\x7d")
    (.obj [(chars "type", .str (chars "response.completed")),
           (chars "response", .obj [(chars "usage", .obj [
             (chars "input_tokens", .num 3), (chars "output_tokens", .num 7)])])])
    true rfl rfl rfl

/-- C5 counterexample: a `data:`-prefixed line whose type is unrecognized
yields a one-element fragment list (containing the empty fragment), not the
zero fragments the claim states. -/
theorem claim_C5_counterexample :
    (ConvertCodexResponseToClaude .null
      (chars "data: \x7b\"type\":\"bogus\"\x7d") (some false)).1 ≠ [] :=
  fun h => List.noConfusion h

/-- C5 as amended: a line without the `data:` marker yields the empty
fragment list, and a `data:` line whose type is unrecognized (or whose
payload does not parse, making its type empty) yields exactly one fragment
that carries zero events — so in both cases no event is emitted, but the
returned fragment lists differ. -/
theorem claim_C5_unrecognized_input_amended (req : Json) (line : List Char)
    (st : Option Bool) :
    (goHasPrefix line dataTag = false →
      ConvertCodexResponseToClaude req line st = ([], st.getD false)) ∧
    (goHasPrefix line dataTag = true →
      rootGetString (jsonParse (trimSpace (line.drop 5))) [chars "type"]
        ∉ recognizedStreamTypes →
      (ConvertCodexResponseToClaude req line st).1 = [[]]) := by
  constructor
  · intro h
    unfold ConvertCodexResponseToClaude
    rw [if_neg (by simp [h])]
  · intro hpre hmem
    simp only [recognizedStreamTypes, List.mem_cons, List.mem_singleton, not_or] at hmem
    obtain ⟨h1, h2, h3, h4, h5, h6, h7, h8, h9, h10, h11, -⟩ := hmem
    unfold ConvertCodexResponseToClaude
    rw [if_pos hpre, if_neg h1, if_neg h2, if_neg h3, if_neg h4, if_neg h5,
      if_neg h6, if_neg h7, if_neg h8, if_neg h9, if_neg h10, if_neg h11]

/-- C5 witness: the two amended cases at concrete inputs. -/
theorem claim_C5_witness :
    ConvertCodexResponseToClaude .null (chars "nope") none = ([], false) ∧
    (ConvertCodexResponseToClaude .null
      (chars "data: \x7b\"type\":\"zzz\"\x7d") (some false)).1 = [[]] :=
  ⟨(claim_C5_unrecognized_input_amended .null (chars "nope") none).1 (by decide),
   (claim_C5_unrecognized_input_amended .null
      (chars "data: \x7b\"type\":\"zzz\"\x7d") (some false)).2 (by decide) (by decide)⟩

/-- C6: the non-stream converter returns the empty signal exactly on
non-terminal upstream documents — those whose `type` is not
`response.completed` or that carry no `response` object — and a (non-empty)
document for every terminal upstream document, so the two cases are
distinguishable. -/
theorem claim_C6_nonstream_empty_iff_not_terminal (req resp : Json) :
    (ConvertCodexResponseToClaudeNonStream req resp = none ↔
      (jGetString resp [chars "type"] ≠ chars "response.completed" ∨
        jGet resp [chars "response"] = none)) ∧
    (jGetString resp [chars "type"] = chars "response.completed" →
      jGet resp [chars "response"] ≠ none →
      ∃ out, ConvertCodexResponseToClaudeNonStream req resp = some out) := by
  by_cases ht : jGetString resp [chars "type"] = chars "response.completed"
  · cases hr : jGet resp [chars "response"] with
    | none =>
      constructor
      · simp [ConvertCodexResponseToClaudeNonStream, ht, hr]
      · intro _ habs
        exact absurd rfl (hr ▸ habs)
    | some rd =>
      constructor
      · simp [ConvertCodexResponseToClaudeNonStream, ht, hr]
      · intro _ _
        have hne : ConvertCodexResponseToClaudeNonStream req resp ≠ none := by
          simp [ConvertCodexResponseToClaudeNonStream, ht, hr]
        cases hc : ConvertCodexResponseToClaudeNonStream req resp with
        | none => exact absurd hc hne
        | some out => exact ⟨out, rfl⟩
  · constructor
    · simp [ConvertCodexResponseToClaudeNonStream, ht]
    · intro h
      exact absurd h ht

theorem outputFold_foldl_fst (rev : List (List Char × List Char)) :
    ∀ (items : List Json) (acc : List Json) (b : Bool),
      (items.foldl (fun acc it =>
        (acc.1 ++ itemBlocks rev it,
         acc.2 || decide (jGetString it [chars "type"] = chars "function_call")))
        (acc, b)).1
        = acc ++ items.flatMap (itemBlocks rev)
  | [], acc, b => by simp
  | it :: rest, acc, b => by
    simp only [List.foldl_cons, List.flatMap_cons]
    rw [outputFold_foldl_fst rev rest]
    simp [List.append_assoc]

/-- The content blocks accumulated by the output pass are the concatenation of
each item's blocks, in order. -/
theorem outputFold_fst (rev : List (List Char × List Char)) (items : List Json) :
    (outputFold rev items).1 = items.flatMap (itemBlocks rev) := by
  unfold outputFold
  rw [outputFold_foldl_fst rev items [] false]
  simp

theorem itemBlocks_function_call (rev : List (List Char × List Char)) (item : Json)
    (h : jGetString item [chars "type"] = chars "function_call") :
    itemBlocks rev item = [toolUseBlock rev item] := by
  simp only [itemBlocks, h]
  rw [if_neg (by decide), if_neg (by decide), if_pos trivial]

theorem buildReverseMap_eq_nil (req : Json) (h : claudeToolNames req = []) :
    buildReverseMapFromClaudeOriginalShortToOriginal req = [] := by
  simp [buildReverseMapFromClaudeOriginalShortToOriginal, h]

theorem nonStream_terminal_some (req resp rd : Json)
    (hty : jGetString resp [chars "type"] = chars "response.completed")
    (hrd : jGet resp [chars "response"] = some rd) :
    ConvertCodexResponseToClaudeNonStream req resp =
      some (nonStreamBody (buildReverseMapFromClaudeOriginalShortToOriginal req) rd) := by
  simp only [ConvertCodexResponseToClaudeNonStream, hrd]
  rw [if_neg (fun hne => hne hty)]

theorem nonStreamBody_content (rev : List (List Char × List Char)) (rd : Json)
    (items : List Json) (hout : jGet rd [chars "output"] = some (.arr items)) :
    jGet (nonStreamBody rev rd) [chars "content"]
      = some (.arr ((outputFold rev items).1)) := by
  simp only [nonStreamBody, hout]
  rfl

/-- C7: every `function_call` item of a terminal upstream document yields a
tool-use block in the converter's content whose structured `input` is the
parse of the item's JSON-string `arguments` when it parses, and the empty
object `\x7b\x7d` otherwise — a parse failure never fails the conversion. -/
theorem claim_C7_toolUse_arguments_parse_or_empty (req resp rd : Json)
    (items : List Json) (item : Json)
    (hty : jGetString resp [chars "type"] = chars "response.completed")
    (hrd : jGet resp [chars "response"] = some rd)
    (hout : jGet rd [chars "output"] = some (.arr items))
    (hitem : item ∈ items)
    (htype : jGetString item [chars "type"] = chars "function_call") :
    ∃ out blocks,
      ConvertCodexResponseToClaudeNonStream req resp = some out ∧
      jGet out [chars "content"] = some (.arr blocks) ∧
      toolUseBlock (buildReverseMapFromClaudeOriginalShortToOriginal req) item ∈ blocks ∧
      jGet (toolUseBlock (buildReverseMapFromClaudeOriginalShortToOriginal req) item)
          [chars "input"]
        = some (match jsonParse (jGetString item [chars "arguments"]) with
                | some args => args
                | none => Json.obj []) := by
  refine ⟨_,
    (outputFold (buildReverseMapFromClaudeOriginalShortToOriginal req) items).1,
    nonStream_terminal_some req resp rd hty hrd,
    nonStreamBody_content _ rd items hout, ?_, ?_⟩
  · rw [outputFold_fst]
    apply List.mem_flatMap.mpr
    refine ⟨item, hitem, ?_⟩
    rw [itemBlocks_function_call _ item htype]
    exact List.mem_singleton_self _
  · have hread : jGet (toolUseBlock (buildReverseMapFromClaudeOriginalShortToOriginal req) item)
        [chars "input"]
        = some (if jGetString item [chars "arguments"] ≠ [] then
                  match jsonParse (jGetString item [chars "arguments"]) with
                  | some args => args
                  | none => Json.obj []
                else Json.obj []) := rfl
    rw [hread]
    by_cases hargs : jGetString item [chars "arguments"] = []
    · rw [hargs]
      rfl
    · rw [if_pos hargs]

/-- C7 witness: one item whose arguments parse, one whose arguments do not. -/
theorem claim_C7_witness :
    (∃ out blocks,
      ConvertCodexResponseToClaudeNonStream .null
        (.obj [(chars "type", .str (chars "response.completed")),
               (chars "response", .obj [(chars "output", .arr [
                 .obj [(chars "type", .str (chars "function_call")),
                       (chars "call_id", .str (chars "c1")),
                       (chars "name", .str (chars "f")),
                       (chars "arguments", .str (chars "\x7b\"x\":1\x7d"))]])])])
        = some out ∧
      jGet out [chars "content"] = some (.arr blocks) ∧
      toolUseBlock (buildReverseMapFromClaudeOriginalShortToOriginal .null)
          (.obj [(chars "type", .str (chars "function_call")),
                 (chars "call_id", .str (chars "c1")),
                 (chars "name", .str (chars "f")),
                 (chars "arguments", .str (chars "\x7b\"x\":1\x7d"))]) ∈ blocks ∧
      jGet (toolUseBlock (buildReverseMapFromClaudeOriginalShortToOriginal .null)
          (.obj [(chars "type", .str (chars "function_call")),
                 (chars "call_id", .str (chars "c1")),
                 (chars "name", .str (chars "f")),
                 (chars "arguments", .str (chars "\x7b\"x\":1\x7d"))]))
          [chars "input"]
        = some (match jsonParse (jGetString
                  (.obj [(chars "type", .str (chars "function_call")),
                         (chars "call_id", .str (chars "c1")),
                         (chars "name", .str (chars "f")),
                         (chars "arguments", .str (chars "\x7b\"x\":1\x7d"))])
                  [chars "arguments"]) with
                | some args => args
                | none => Json.obj [])) ∧
    (∃ out blocks,
      ConvertCodexResponseToClaudeNonStream .null
        (.obj [(chars "type", .str (chars "response.completed")),
               (chars "response", .obj [(chars "output", .arr [
                 .obj [(chars "type", .str (chars "function_call")),
                       (chars "call_id", .str (chars "c2")),
                       (chars "name", .str (chars "g")),
                       (chars "arguments", .str (chars "\x7bbad"))]])])])
        = some out ∧
      jGet out [chars "content"] = some (.arr blocks) ∧
      toolUseBlock (buildReverseMapFromClaudeOriginalShortToOriginal .null)
          (.obj [(chars "type", .str (chars "function_call")),
                 (chars "call_id", .str (chars "c2")),
                 (chars "name", .str (chars "g")),
                 (chars "arguments", .str (chars "\x7bbad"))]) ∈ blocks ∧
      jGet (toolUseBlock (buildReverseMapFromClaudeOriginalShortToOriginal .null)
          (.obj [(chars "type", .str (chars "function_call")),
                 (chars "call_id", .str (chars "c2")),
                 (chars "name", .str (chars "g")),
                 (chars "arguments", .str (chars "\x7bbad"))]))
          [chars "input"]
        = some (match jsonParse (jGetString
                  (.obj [(chars "type", .str (chars "function_call")),
                         (chars "call_id", .str (chars "c2")),
                         (chars "name", .str (chars "g")),
                         (chars "arguments", .str (chars "\x7bbad"))])
                  [chars "arguments"]) with
                | some args => args
                | none => Json.obj [])) :=
  ⟨claim_C7_toolUse_arguments_parse_or_empty .null _ _ _ _ rfl rfl rfl
      (List.mem_singleton_self _) rfl,
   claim_C7_toolUse_arguments_parse_or_empty .null _ _ _ _ rfl rfl rfl
      (List.mem_singleton_self _) rfl⟩

/-- C10: when the original request has no tools array (or no tool entry with
a non-empty name) the recomputed reverse tool-name map is empty, and both
converters emit every upstream `function_call` item with its name unchanged:
the streaming converter still opens the tool-use block (name copied
verbatim), and the non-stream converter still contributes the tool-use block
(name copied verbatim). -/
theorem claim_C10_empty_reverse_map_names_unchanged (req : Json)
    (hnames : claudeToolNames req = []) :
    buildReverseMapFromClaudeOriginalShortToOriginal req = [] ∧
    (∀ (line : List Char) (j : Json) (b : Bool),
      goHasPrefix line dataTag = true →
      jsonParse (trimSpace (line.drop 5)) = some j →
      jGetString j [chars "type"] = chars "response.output_item.added" →
      jGetString j [chars "item", chars "type"] = chars "function_call" →
      (ConvertCodexResponseToClaude req line (some b)).1 =
        [[(chars "content_block_start", .obj [
            (chars "type", .str (chars "content_block_start")),
            (chars "index", .num (jGetInt j [chars "output_index"])),
            (chars "content_block", .obj [
              (chars "type", .str (chars "tool_use")),
              (chars "id", .str (jGetString j [chars "item", chars "call_id"])),
              (chars "name", .str (jGetString j [chars "item", chars "name"])),
              (chars "input", .obj [])])]),
          (chars "content_block_delta", .obj [
            (chars "type", .str (chars "content_block_delta")),
            (chars "index", .num (jGetInt j [chars "output_index"])),
            (chars "delta", .obj [
              (chars "type", .str (chars "input_json_delta")),
              (chars "partial_json", .str [])])])]]) ∧
    (∀ item : Json, jGetString item [chars "type"] = chars "function_call" →
      itemBlocks (buildReverseMapFromClaudeOriginalShortToOriginal req) item =
        [toolUseBlock [] item] ∧
      jGet (toolUseBlock [] item) [chars "name"]
        = some (.str (jGetString item [chars "name"]))) := by
  have hrev := buildReverseMap_eq_nil req hnames
  refine ⟨hrev, ?_, ?_⟩
  · intro line j b hpre hparse htype hitem
    unfold ConvertCodexResponseToClaude
    rw [if_pos hpre]
    simp only [hparse, rootGetString, rootGetInt, htype, hitem, hrev]
    rfl
  · intro item htype
    constructor
    · rw [itemBlocks_function_call _ item htype, hrev]
    · rfl

/-- C10 witness: the null request has no tools; a concrete `function_call`
item added during streaming and a concrete non-stream item keep their names. -/
theorem claim_C10_witness :
    buildReverseMapFromClaudeOriginalShortToOriginal .null = [] ∧
    (∀ (line : List Char) (j : Json) (b : Bool),
      goHasPrefix line dataTag = true →
      jsonParse (trimSpace (line.drop 5)) = some j →
      jGetString j [chars "type"] = chars "response.output_item.added" →
      jGetString j [chars "item", chars "type"] = chars "function_call" →
      (ConvertCodexResponseToClaude .null line (some b)).1 =
        [[(chars "content_block_start", .obj [
            (chars "type", .str (chars "content_block_start")),
            (chars "index", .num (jGetInt j [chars "output_index"])),
            (chars "content_block", .obj [
              (chars "type", .str (chars "tool_use")),
              (chars "id", .str (jGetString j [chars "item", chars "call_id"])),
              (chars "name", .str (jGetString j [chars "item", chars "name"])),
              (chars "input", .obj [])])]),
          (chars "content_block_delta", .obj [
            (chars "type", .str (chars "content_block_delta")),
            (chars "index", .num (jGetInt j [chars "output_index"])),
            (chars "delta", .obj [
              (chars "type", .str (chars "input_json_delta")),
              (chars "partial_json", .str [])])])]]) ∧
    (∀ item : Json, jGetString item [chars "type"] = chars "function_call" →
      itemBlocks (buildReverseMapFromClaudeOriginalShortToOriginal .null) item =
        [toolUseBlock [] item] ∧
      jGet (toolUseBlock [] item) [chars "name"]
        = some (.str (jGetString item [chars "name"]))) :=
  claim_C10_empty_reverse_map_names_unchanged .null rfl

/-- C8: a source request with `modalities: ["image","text"]` yields
`responseModalities: ["IMAGE","TEXT"]` — order preserved, recognized values
upper-cased. -/
theorem claim_C8_modalities_mapped_upperCased (req : Json)
    (h : jGet req [chars "modalities"]
      = some (.arr [.str (chars "image"), .str (chars "text")])) :
    convertOpenAIRequestToGemini_responseModalities req
      = some [chars "IMAGE", chars "TEXT"] := by
  simp only [convertOpenAIRequestToGemini_responseModalities, h]
  rfl

/-- C8 witness: a concrete request carrying `modalities: ["image","text"]`. -/
theorem claim_C8_witness :
    convertOpenAIRequestToGemini_responseModalities
      (.obj [(chars "modalities", .arr [.str (chars "image"), .str (chars "text")])])
      = some [chars "IMAGE", chars "TEXT"] :=
  claim_C8_modalities_mapped_upperCased
    (.obj [(chars "modalities", .arr [.str (chars "image"), .str (chars "text")])])
    rfl
